import Mathlib

/-!
Verification of the batched, pipelined MCTS self-play engine (alpha-tak).

The development shallowly embeds the Rust sources:
  - `src/alpha-tak/src/batch_player.rs` (BatchPlayer: send_work, fill_pipeline,
    process_batch, process_pipeline, play_move, get_examples, worker loop),
  - `src/alpha-tak/src/search/play.rs` (Node::improved_policy, pick_move, play,
    verify_invariants),
  - `src/alpha-tak/src/self_play.rs` (self_play_game outcome completion).
Parts of the crate that the shown excerpt only declares (node.rs: the Node
structure and its virtual_rollout / devirtualize_path / is_initialized;
example.rs: Example completion) are modelled from the specification text and
carry a doc comment saying so.

Machine floats (f32 priors, values, outcomes) are represented by `Int`: every
numeric fact proved here only involves the exact values -1, 0, 1 and sums of
evaluator outputs, never rounding.  Rust panics (assert!, unwrap, unreachable!)
are represented by `Except Panic`.
-/

set_option maxHeartbeats 1000000

namespace AlphaTak

/-- Player colour, from the tak crate. -/
inductive Colour where
  | White
  | Black
deriving DecidableEq, Repr

/-- Result of a game, from the tak crate: ongoing, a win for one colour, or a
draw. -/
inductive GameResult where
  | Ongoing
  | Winner (colour : Colour)
  | Draw
deriving DecidableEq, Repr

/-- Move encoding.  The concrete tak move representation is out of scope; moves
are identified by their encoding. -/
abbrev Move := Nat

/-- External game-state contract (spec section 6): side to move, terminal-result
query, legal-move enumeration, and move application.  A position is modelled
by what it answers after any further sequence of moves, so move application is
total; the engine only ever applies moves drawn from the legal-move list / the
node's own children. -/
structure GameState where
  to_move_at : List Move → Colour
  winner_at : List Move → GameResult
  moves_at : List Move → List Move

/-- Side to move in the current position. -/
def GameState.to_move (g : GameState) : Colour := g.to_move_at []

/-- Terminal-result query (Game::winner) for the current position. -/
def GameState.winner (g : GameState) : GameResult := g.winner_at []

/-- Legal-move enumeration for the current position. -/
def GameState.moves (g : GameState) : List Move := g.moves_at []

/-- Move application (Game::play, on the success path). -/
def GameState.play (g : GameState) (m : Move) : GameState :=
  ⟨fun p => g.to_move_at (m :: p), fun p => g.winner_at (m :: p),
   fun p => g.moves_at (m :: p)⟩

/-- A Rust panic, as surfaced by the engine: a failed assert!, a failed
unwrap/expect, or an unreachable! arm. -/
inductive Panic where
  | assertFail
  | unwrapFail
  | unreach
deriving DecidableEq, Repr

/-- Search-tree node (spec section 3): completed real visits, in-flight virtual
visits, accumulated value sum, prior probability (set at expansion), terminal
result, and owned children keyed by move.  The children mapping is represented
as an association list; its order stands for the unordered map's iteration
order. -/
inductive Node where
  | mk (visits : Nat) (virtual_visits : Nat) (value : Int) (prior : Int)
       (result : GameResult) (children : List (Move × Node))

def Node.visits : Node → Nat
  | .mk v _ _ _ _ _ => v

def Node.virtual_visits : Node → Nat
  | .mk _ vv _ _ _ _ => vv

def Node.value : Node → Int
  | .mk _ _ x _ _ _ => x

def Node.prior : Node → Int
  | .mk _ _ _ p _ _ => p

def Node.result : Node → GameResult
  | .mk _ _ _ _ r _ => r

def Node.children : Node → List (Move × Node)
  | .mk _ _ _ _ _ cs => cs

@[simp] theorem Node.visits_mk (v vv : Nat) (x p : Int) (r : GameResult)
    (cs : List (Move × Node)) : (Node.mk v vv x p r cs).visits = v := rfl

@[simp] theorem Node.virtual_visits_mk (v vv : Nat) (x p : Int) (r : GameResult)
    (cs : List (Move × Node)) : (Node.mk v vv x p r cs).virtual_visits = vv := rfl

@[simp] theorem Node.value_mk (v vv : Nat) (x p : Int) (r : GameResult)
    (cs : List (Move × Node)) : (Node.mk v vv x p r cs).value = x := rfl

@[simp] theorem Node.prior_mk (v vv : Nat) (x p : Int) (r : GameResult)
    (cs : List (Move × Node)) : (Node.mk v vv x p r cs).prior = p := rfl

@[simp] theorem Node.result_mk (v vv : Nat) (x p : Int) (r : GameResult)
    (cs : List (Move × Node)) : (Node.mk v vv x p r cs).result = r := rfl

@[simp] theorem Node.children_mk (v vv : Nat) (x p : Int) (r : GameResult)
    (cs : List (Move × Node)) : (Node.mk v vv x p r cs).children = cs := rfl

/-- Node::default / Node::new (spec 4.1): unvisited node, no children,
Ongoing. -/
def Node.new : Node := .mk 0 0 0 0 .Ongoing []

instance : Inhabited Node := ⟨Node.new⟩

/-- Modelled from the spec: Node::is_initialized lives in the excerpt's missing
node.rs; per spec section 7 the search-output readers fail fast exactly on a
node with zero visits, so initialization is `visits > 0`. -/
def Node.inited (n : Node) : Bool := 0 < n.visits

/-- Node::check_initialized from search/play.rs: assert!(is_initialized). -/
def Node.check_init (n : Node) : Except Panic Unit :=
  if n.inited then .ok () else .error .assertFail

/-- Node::improved_policy from search/play.rs: after the initialization assert,
the map from each child move to that child's raw visit count. -/
def Node.improved_policy (n : Node) : Except Panic (List (Move × Nat)) :=
  match n.check_init with
  | .error e => .error e
  | .ok _ => .ok (n.children.map (fun mc => (mc.1, mc.2.visits)))

/-- Rust Iterator::max_by_key semantics: the element with the largest key, the
last one on ties, None on an empty iterator. -/
def maxByKeyLast (l : List (Move × Nat)) : Option (Move × Nat) :=
  match l with
  | [] => none
  | x :: xs => some (xs.foldl (fun best y => if best.2 ≤ y.2 then y else best) x)

/-- rand::distributions::WeightedIndex sampling: index of the weight bucket that
a uniform draw r (already reduced modulo the total) falls into. -/
def weightedChoose (weights : List Nat) (r : Nat) : Nat :=
  match weights with
  | [] => 0
  | w :: ws => if r < w then 0 else weightedChoose ws (r - w) + 1

/-- Node::pick_move from search/play.rs.  In exploitation mode the move of
maximal visit count wins (max_by_key over the unordered policy map, so the
association-list order is the map's iteration order); otherwise a move is
sampled with probability proportional to visit count, where
WeightedIndex::new(..).unwrap() panics when the weights are empty or sum to
zero.  The free draw r stands for the rng output. -/
def Node.pick_move (n : Node) (exploitation : Bool) (r : Nat) : Except Panic Move :=
  match n.improved_policy with
  | .error e => .error e
  | .ok pol =>
    if exploitation then
      match maxByKeyLast pol with
      | none => .error .unwrapFail
      | some best => .ok best.1
    else
      let weights := pol.map (fun mc => mc.2)
      if weights.sum = 0 then .error .unwrapFail
      else .ok ((pol.get! (weightedChoose weights (r % weights.sum))).1)

/-- Node::play from search/play.rs: after the initialization assert, detach and
return the subtree for the given move; expect panics when the move is not a
child.  (Sibling teardown and invariant checking happen on the discarded tree
and are covered separately.) -/
def Node.play (n : Node) (turn : Move) : Except Panic Node :=
  match n.check_init with
  | .error e => .error e
  | .ok _ =>
    match n.children.find? (fun mc => mc.1 == turn) with
    | some mc => .ok mc.2
    | none => .error .unwrapFail

/-- The discarded tree of Node::play from search/play.rs: after
children.remove(turn) detaches the played subtree, the remaining structure --
the played node minus the committed move's child -- is handed to the spawned
reclamation thread, which runs verify_invariants on exactly this value.  The
association-list removal drops the entries carrying the played key; under the
tree's no-duplicate-keys invariant that is the single removed entry. -/
def Node.discard (n : Node) (turn : Move) : Node :=
  match n with
  | .mk v vv x p r cs => .mk v vv x p r (cs.filter (fun mc => !(mc.1 == turn)))

/-- Incomplete training example from batch_player.rs: position plus the
improved-policy mapping, awaiting the game outcome. -/
structure IncompleteExample where
  game : GameState
  policy : List (Move × Nat)

/-- Completed training example (spec section 3): position, visit-count policy,
and the signed outcome from the mover-to-play's perspective. -/
structure Example where
  game : GameState
  policy : List (Move × Nat)
  outcome : Int

/-- Modelled from the spec: IncompleteExample::complete lives in the excerpt's
missing example.rs; it fills in the outcome, a signed scalar from the
example-owner's perspective, leaving state and policy unchanged. -/
def IncompleteExample.complete (ex : IncompleteExample) (outcome : Int) : Example :=
  ⟨ex.game, ex.policy, outcome⟩

/-- The reference-side (White) result value computed at the top of
BatchPlayer::get_examples: +1 for a White win, -1 for a Black win, 0 for a
draw; unreachable! while the game is Ongoing. -/
def whiteResultOf : GameResult → Except Panic Int
  | .Winner .White => .ok 1
  | .Winner .Black => .ok (-1)
  | .Draw => .ok 0
  | .Ongoing => .error .unreach

/-- BatchPlayer::get_examples from batch_player.rs: completes every collected
example with the White-relative result, negated when Black is to move in the
example's position. -/
def get_examples (result : GameResult) (examples : List IncompleteExample) :
    Except Panic (List Example) :=
  match whiteResultOf result with
  | .error e => .error e
  | .ok white_result =>
    .ok (examples.map (fun ex =>
      ex.complete (if ex.game.to_move = .White then white_result else -white_result)))

/-- Worker-loop body from BatchPlayer::new: an empty batch short-circuits to the
default (empty, zero-valued) response without consulting the evaluator;
otherwise the evaluator's batched result is forwarded unchanged.  The evaluator
E maps a batch of states to (per-state policy vector, per-state value), in
matching order. -/
def workerResponse (E : List GameState → List (List (Move × Int)) × List Int)
    (games : List GameState) : List (List (Move × Int)) × List Int :=
  if games.isEmpty then ([], []) else E games

/-- A recorded rollout path: the ordered moves from the root to the reached
leaf (spec section 3). -/
abbrev Path := List Move

/-- The position reached from g by applying the moves of a path in order. -/
def playPath (g : GameState) (p : Path) : GameState := p.foldl GameState.play g

/-- Terminal value of a game result from the perspective of the given side. -/
def GameResult.score (r : GameResult) (side : Colour) : Int :=
  match r with
  | .Winner c => if c = side then 1 else -1
  | _ => 0

/-- Replace the child stored under the given move key, leaving the key set
unchanged.  This is the in-place mutation of one owned child; under the
tree's no-duplicate-keys invariant exactly one entry is affected. -/
def setChild (cs : List (Move × Node)) (m : Move) (c : Node) : List (Move × Node) :=
  cs.map (fun mc => if mc.1 == m then (mc.1, c) else mc)

/-- Apply an update to the child stored under the given move key, leaving the
key set unchanged (the get_mut access of the recorded move's child). -/
def updChild (cs : List (Move × Node)) (m : Move) (f : Node → Node) : List (Move × Node) :=
  cs.map (fun mc => if mc.1 == m then (mc.1, f mc.2) else mc)

/-- Output of one virtual rollout: the updated tree, the recorded path, the
classification of the reached leaf, the leaf position itself, and the value
backed up at the root (zero when the leaf still awaits evaluation). -/
structure RolloutOut where
  tree : Node
  path : Path
  res : GameResult
  leaf : GameState
  backed : Int

/-- Modelled from the spec: Node::virtual_rollout lives in the excerpt's
missing node.rs.  Per spec 4.1: descend from the root; at a node whose result
is already terminal, or an unexpanded node whose position is terminal, stop --
no evaluation is needed and the known terminal value is backed up along the
traversed path at once (the immediate devirtualization of spec section 8's
forced-win scenario, folded into the descent so the net statistics match);
at an unexpanded Ongoing node, record the path, leave a virtual visit on every
traversed node and stop (needs evaluation); otherwise select a child, apply
its move to the cloned position and recurse.  Which child the PUCT formula
selects is abstracted by the selector sel (an index into the children list);
the claims proved below hold for every selector. -/
def virtual_rollout (sel : List (Move × Node) → Nat) : Node → GameState → RolloutOut
  | .mk v vv x p r cs, g =>
    if r = .Ongoing then
      if hcs : cs.length = 0 then
        match g.winner with
        | .Ongoing => ⟨.mk v (vv + 1) x p r cs, [], .Ongoing, g, 0⟩
        | rr => ⟨.mk (v + 1) vv (x + rr.score g.to_move) p rr cs, [], rr, g,
                 rr.score g.to_move⟩
      else
        let mc := cs.get ⟨sel cs % cs.length, Nat.mod_lt _ (Nat.pos_of_ne_zero hcs)⟩
        let out := virtual_rollout sel mc.2 (g.play mc.1)
        if out.res = .Ongoing then
          ⟨.mk v (vv + 1) x p r (setChild cs mc.1 out.tree), mc.1 :: out.path,
           .Ongoing, out.leaf, 0⟩
        else
          ⟨.mk (v + 1) vv (x - out.backed) p r (setChild cs mc.1 out.tree),
           mc.1 :: out.path, out.res, out.leaf, -out.backed⟩
    else
      ⟨.mk (v + 1) vv (x + r.score g.to_move) p r cs, [], r, g, r.score g.to_move⟩
termination_by n _ => sizeOf n
decreasing_by
  simp only [Node.mk.sizeOf_spec]
  have h2 := List.sizeOf_lt_of_mem
    (List.get_mem cs (sel cs % cs.length) (Nat.mod_lt _ (Nat.pos_of_ne_zero hcs)))
  have h3 : sizeOf (cs.get ⟨sel cs % cs.length, Nat.mod_lt _ (Nat.pos_of_ne_zero hcs)⟩).2
      < sizeOf (cs.get ⟨sel cs % cs.length, Nat.mod_lt _ (Nat.pos_of_ne_zero hcs)⟩) := by
    obtain ⟨m0, c0⟩ := cs.get ⟨sel cs % cs.length, Nat.mod_lt _ (Nat.pos_of_ne_zero hcs)⟩
    simp only [Prod.mk.sizeOf_spec]
    omega
  omega

/-- Modelled from the spec: Node::devirtualize_path lives in the excerpt's
missing node.rs.  Per spec 4.1: walk the recorded path from the root; at each
node decrement virtual_visits, increment visits and accumulate the evaluated
value (sign alternating with the distance to the leaf, whose mover the value
is scored for); at the path's end, expand with one child per evaluated move
carrying its prior -- unless another already-devirtualized path expanded the
node first, in which case only the statistics are updated (duplicate-expansion
suppression).  The response is the (per-move prior list, value) pair the
evaluator produced for the leaf position. -/
def devirtualize_path : Node → Path → List (Move × Int) × Int → Node
  | .mk v vv x p r cs, [], resp =>
    if cs.isEmpty then
      .mk (v + 1) (vv - 1) (x + resp.2) p r
        (resp.1.map (fun mp => (mp.1, .mk 0 0 0 mp.2 .Ongoing [])))
    else
      .mk (v + 1) (vv - 1) (x + resp.2) p r cs
  | .mk v vv x p r cs, m :: rest, resp =>
    .mk (v + 1) (vv - 1) (x + (if rest.length % 2 = 0 then -resp.2 else resp.2)) p r
      (updChild cs m (fun c => devirtualize_path c rest resp))
termination_by n path _ => path.length
decreasing_by simp only [List.length_cons]; omega

/-- A pending batch: the recorded paths and, aligned index by index, the leaf
positions submitted to the work channel (whose eventual response resolves the
paths). -/
structure Batch where
  paths : List Path
  games : List GameState

/-- BatchPlayer from batch_player.rs: the search tree root, the configuration,
the FIFO queue of pending batches, and the collected incomplete examples.
(The network handle is passed to the operations as an explicit evaluator; the
analysis log is out of scope.) -/
structure BPState where
  node : Node
  batch_size : Nat
  pipeline_depth : Nat
  batch_queue : List Batch
  examples : List IncompleteExample

/-- Batched evaluator as seen by the worker loop: a list of positions in, a
(policy vectors, values) pair out, in matching order. -/
abbrev BatchEval := List GameState → List (List (Move × Int)) × List Int

/-- The (0..batch_size).filter_map body of BatchPlayer::send_work: perform the
given number of virtual rollouts from the current root, threading the tree,
and keep (path, leaf position) for exactly the rollouts whose leaf is Ongoing,
in rollout order. -/
def runRollouts (sel : List (Move × Node) → Nat) (g : GameState) :
    Nat → Node → Node × List (Path × GameState)
  | 0, n => (n, [])
  | k + 1, n =>
    let out := virtual_rollout sel n g
    let rest := runRollouts sel g k out.tree
    if out.res = .Ongoing then (rest.1, (out.path, out.leaf) :: rest.2) else rest

/-- BatchPlayer::send_work from batch_player.rs: batch_size virtual rollouts,
terminal rollouts discarded, the surviving leaf positions submitted as one
batch pushed at the back of the pending queue together with their paths. -/
def send_work (sel : List (Move × Node) → Nat) (g : GameState) (s : BPState) : BPState :=
  let r := runRollouts sel g s.batch_size s.node
  ⟨r.1, s.batch_size, s.pipeline_depth,
   s.batch_queue ++ [⟨r.2.map Prod.fst, r.2.map Prod.snd⟩], s.examples⟩

/-- Iterated send_work, used by fill_pipeline. -/
def iterateSend (sel : List (Move × Node) → Nat) (g : GameState) :
    Nat → BPState → BPState
  | 0, s => s
  | k + 1, s => iterateSend sel g k (send_work sel g s)

/-- BatchPlayer::fill_pipeline from batch_player.rs: top the pending queue up
to pipeline_depth batches. -/
def fill_pipeline (sel : List (Move × Node) → Nat) (g : GameState) (s : BPState) : BPState :=
  iterateSend sel g (s.pipeline_depth - s.batch_queue.length) s

/-- BatchPlayer::process_batch from batch_player.rs: pop the oldest pending
batch from the front of the queue, receive its response from the worker, and
devirtualize every contained path against its per-state result, in order.
(The Rust code unwraps the pop; its callers only invoke it on a non-empty
queue, so the empty case is the identity here.) -/
def process_batch (E : BatchEval) (s : BPState) : BPState :=
  match s.batch_queue with
  | [] => s
  | b :: rest =>
    let resp := workerResponse E b.games
    ⟨((resp.1.zip resp.2).zip b.paths).foldl
       (fun n pr => devirtualize_path n pr.2 pr.1) s.node,
     s.batch_size, s.pipeline_depth, rest, s.examples⟩

/-- BatchPlayer::process_pipeline from batch_player.rs: process batches until
the pending queue is empty. -/
def process_pipeline (E : BatchEval) (s : BPState) : BPState :=
  match h : s.batch_queue with
  | [] => s
  | b :: rest => process_pipeline E (process_batch E s)
termination_by s.batch_queue.length
decreasing_by
  simp only [process_batch, h]
  simp only [List.length_cons]
  omega

/-- The tail of BatchPlayer::play_move, operating on the already-drained
state: record the incomplete example from the improved policy, detach the
played child (discarding the siblings), and refill the pipeline from the
position after the move. -/
def commit_refill (sel : List (Move × Node) → Nat) (g : GameState) (turn : Move)
    (s : BPState) : Except Panic BPState :=
  match s.node.improved_policy with
  | .error e => .error e
  | .ok pol =>
    match s.node.play turn with
    | .error e => .error e
    | .ok child =>
      .ok (fill_pipeline sel (g.play turn)
        ⟨child, s.batch_size, s.pipeline_depth, s.batch_queue,
         s.examples ++ [⟨g, pol⟩]⟩)

/-- BatchPlayer::play_move from batch_player.rs, in source order: first drain
the whole pipeline (rolling out stale paths), then record the example from the
improved policy, update the tree by playing the move, and refill the queue
from the successor position. -/
def play_move (sel : List (Move × Node) → Nat) (E : BatchEval) (g : GameState)
    (turn : Move) (s : BPState) : Except Panic BPState :=
  let s1 := process_pipeline E s
  match s1.node.improved_policy with
  | .error e => .error e
  | .ok pol =>
    match s1.node.play turn with
    | .error e => .error e
    | .ok child =>
      .ok (fill_pipeline sel (g.play turn)
        ⟨child, s1.batch_size, s1.pipeline_depth, s1.batch_queue,
         s1.examples ++ [⟨g, pol⟩]⟩)

/-- The full record of batch_size sequential rollouts: the threaded tree and,
for every rollout in order, its recorded path, leaf position and leaf
classification (kept even for terminal rollouts, unlike send_work). -/
def rolloutTrace (sel : List (Move × Node) → Nat) (g : GameState) :
    Nat → Node → Node × List (Path × GameState × GameResult)
  | 0, n => (n, [])
  | k + 1, n =>
    let out := virtual_rollout sel n g
    let rest := rolloutTrace sel g k out.tree
    (rest.1, (out.path, out.leaf, out.res) :: rest.2)

/-- verify_invariants from Node::play in search/play.rs, run on the discarded
tree after the full drain at move commit: virtual_visits is zero; a node with
zero visits is Ongoing with no children; a node with positive visits has
exactly one of a decided result and a non-empty child list; recursively for
all children. -/
def verify_invariants : Node → Bool
  | .mk v vv _ _ r cs =>
    (vv == 0) &&
    (match v with
     | 0 => (r == .Ongoing) && (cs.length == 0)
     | _ + 1 => ((r == .Ongoing)).xor (cs.length == 0)) &&
    cs.attach.all (fun mc => verify_invariants mc.1.2)
termination_by n => sizeOf n
decreasing_by
  simp only [Node.mk.sizeOf_spec]
  have h2 := List.sizeOf_lt_of_mem mc.2
  have h3 : sizeOf mc.1.2 < sizeOf mc.1 := by
    obtain ⟨⟨m0, c0⟩, hm⟩ := mc
    simp only [Prod.mk.sizeOf_spec]
    omega
  omega

/-- The pending paths routed into the child reached by move m: tails of the
pending paths whose first move is m, in order. -/
def sub (P : List Path) (m : Move) : List Path :=
  (P.filter (fun q => q.head? == some m)).map List.tail

/-- Structural soundness of the real (non-virtual) statistics of a tree: the
two visit invariants of verify_invariants, plus distinctness of the child move
keys (the children mapping is a map). -/
inductive RInv : Node → Prop where
  | mk (v vv : Nat) (x p : Int) (r : GameResult) (cs : List (Move × Node))
      (h0 : v = 0 → r = .Ongoing ∧ cs = [])
      (h1 : 0 < v → ((r = .Ongoing) ↔ cs ≠ []))
      (hk : (cs.map Prod.fst).Nodup)
      (hc : ∀ mc ∈ cs, RInv mc.2) : RInv (.mk v vv x p r cs)

/-- In-flight bookkeeping of a tree against its pending (submitted, not yet
devirtualized) paths, at the position g of the tree's root: every node's
virtual_visits equals the number of pending paths traversing it; a pending
path ends only at an Ongoing node whose position is still Ongoing (terminal
leaves are never submitted for evaluation); and pending paths only descend
into existing children. -/
inductive Bal : GameState → Node → List Path → Prop where
  | mk (g : GameState) (v vv : Nat) (x p : Int) (r : GameResult)
      (cs : List (Move × Node)) (P : List Path)
      (hlen : vv = P.length)
      (hleaf : [] ∈ P → r = .Ongoing ∧ g.winner = .Ongoing)
      (hhead : ∀ q ∈ P, ∀ m rest, q = m :: rest → m ∈ cs.map Prod.fst)
      (hc : ∀ mc ∈ cs, Bal (g.play mc.1) mc.2 (sub P mc.1)) :
      Bal g (.mk v vv x p r cs) P

/-- Per-position evaluator as seen by one tree: policy (move, prior) pairs and
a value for a given position. -/
abbrev StateEval := GameState → List (Move × Int) × Int

/-- The evaluator call contract (spec section 6) as used by expansion: for an
Ongoing position the returned policy covers at least one move and lists each
move once. -/
def EvalOk (E : StateEval) : Prop :=
  ∀ g, g.winner = .Ongoing → (E g).1 ≠ [] ∧ ((E g).1.map Prod.fst).Nodup

/-- The per-tree search states reachable by the pipelined engine, abstracted
to the drain granularity of single paths: starting from a fresh root, a step
either performs one virtual rollout at the current root position (appending
the recorded path to the pending list when the leaf awaits evaluation), or
devirtualizes the oldest pending path against the evaluator response for its
leaf position (FIFO, matching process_batch's in-order resolution), or -- with
nothing in flight, as play_move guarantees -- commits a move by making one of
the root's children the new root.  Rollout selectors and commit choices are
arbitrary at every step. -/
inductive SReach (E : StateEval) : GameState → Node → List Path → Prop where
  | init (g : GameState) : SReach E g Node.new []
  | rollout (sel : List (Move × Node) → Nat) (g : GameState) (t : Node)
      (P : List Path) (h : SReach E g t P) :
      SReach E g (virtual_rollout sel t g).tree
        (if (virtual_rollout sel t g).res = .Ongoing
         then P ++ [(virtual_rollout sel t g).path] else P)
  | devirt (g : GameState) (t : Node) (p : Path) (P : List Path)
      (h : SReach E g t (p :: P)) :
      SReach E g (devirtualize_path t p (E (playPath g p))) P
  | commit (g : GameState) (t : Node) (m : Move) (c : Node)
      (h : SReach E g t []) (hm : (m, c) ∈ t.children) :
      SReach E (g.play m) c []

/-- BatchPlayer state instrumented with ghost batch identities: each pending
batch carries the submission index it received, next_id counts submissions,
and drained records the identities in devirtualization order. -/
structure IBPState where
  bp : BPState
  ids : List Nat
  next_id : Nat
  drained : List Nat

/-- send_work on the instrumented state: the new batch is pushed at the back
and receives the next submission identity. -/
def isubmit (sel : List (Move × Node) → Nat) (g : GameState) (t : IBPState) : IBPState :=
  ⟨send_work sel g t.bp, t.ids ++ [t.next_id], t.next_id + 1, t.drained⟩

/-- process_batch on the instrumented state: the front of the queue is popped
and its identity is appended to the drain record.  (Like process_batch, the
empty case is never invoked by the engine.) -/
def idrain (E : BatchEval) (t : IBPState) : IBPState :=
  match t.ids with
  | [] => t
  | i :: rest => ⟨process_batch E t.bp, rest, t.next_id, t.drained ++ [i]⟩

/-- Instrumented pipeline histories of one tree: any interleaving of batch
submissions (send_work) and drains (process_batch), from any state with an
empty pending queue. -/
inductive IBPReach (E : BatchEval) : IBPState → Prop where
  | init (s : BPState) (h : s.batch_queue = []) : IBPReach E ⟨s, [], 0, []⟩
  | submit (sel : List (Move × Node) → Nat) (g : GameState) (t : IBPState)
      (h : IBPReach E t) : IBPReach E (isubmit sel g t)
  | drain (t : IBPState) (h : IBPReach E t) : IBPReach E (idrain E t)

/-- White's result value as a plain function on terminal results (the value
get_examples starts from). -/
def whiteResultValue : GameResult → Int
  | .Winner .White => 1
  | .Winner .Black => -1
  | _ => 0

/-- The outcome the claim prescribes for one example: +1 when the side to move
in the example's position is the winner, -1 when it is the loser, 0 on a
draw.  This transcribes the specification sentence, to be compared with
get_examples. -/
def outcomeSpecC1 (result : GameResult) (side_to_move : Colour) : Int :=
  match result with
  | .Winner w => if side_to_move = w then 1 else -1
  | _ => 0

/-- A concrete position used to evaluate the engine on closed inputs: White to
move, ongoing, one legal move everywhere. -/
def constGame : GameState := ⟨fun _ => .White, fun _ => .Ongoing, fun _ => [0]⟩

/-- A concrete per-position evaluator used on closed inputs: one legal move
with prior 1, value 0, at every position. -/
def constSE : StateEval := fun _ => ([(0, 1)], 0)

/-- A concrete batched evaluator used on closed inputs: empty response. -/
def constBE : BatchEval := fun _ => ([], [])

/-- An expanded node after exactly one completed rollout: one real visit, two
fresh zero-visit children. -/
def zeroKidsNode : Node := .mk 1 0 0 0 .Ongoing [(0, Node.new), (1, Node.new)]

/-- A fresh instrumented pipeline state on closed inputs. -/
def startIBP : IBPState := ⟨⟨Node.new, 1, 1, [], []⟩, [], 0, []⟩

/-- The drained tree after one rollout of constGame under constSE: the root
was expanded for the single legal move, so it holds exactly one child. -/
def oneKidTree : Node := .mk 1 0 0 0 .Ongoing [(0, .mk 0 0 0 1 .Ongoing [])]

/-- A node whose two children have distinct visit counts, first order. -/
def uniqNodeA : Node :=
  .mk 3 0 0 0 .Ongoing [(5, .mk 1 0 0 0 .Ongoing []), (7, .mk 2 0 0 0 .Ongoing [])]

/-- The same children mapping as uniqNodeA in the opposite iteration order. -/
def uniqNodeB : Node :=
  .mk 3 0 0 0 .Ongoing [(7, .mk 2 0 0 0 .Ongoing []), (5, .mk 1 0 0 0 .Ongoing [])]

/-! Helper lemmas. -/

theorem inited_of_pos {n : Node} (h : 0 < n.visits) : n.inited = true := by
  simp [Node.inited, h]

theorem playPath_nil (g : GameState) : playPath g [] = g := rfl

theorem playPath_cons (g : GameState) (m : Move) (p : Path) :
    playPath g (m :: p) = playPath (g.play m) p := rfl

/-! C1 -/

/-- C1: for every self-play game ending with a terminal result, get_examples
completes every collected example with the signed outcome from the
mover-to-play's perspective (+1 when the side to move is the winner, -1 when
it is the loser, 0 on a draw); and when the side to move alternates starting
from White on even plies, the outcome at ply i is the White-relative result
with the sign flipped on odd plies. -/
theorem examples_completed_mover_perspective (result : GameResult)
    (exs : List IncompleteExample) (h : result ≠ .Ongoing) :
    ∃ out, get_examples result exs = .ok out ∧
      out.length = exs.length ∧
      (∀ (i : Nat) (ex : IncompleteExample), exs[i]? = some ex →
        out[i]?.map Example.outcome = some (outcomeSpecC1 result ex.game.to_move)) ∧
      ((∀ (i : Nat) (ex : IncompleteExample), exs[i]? = some ex →
          (ex.game.to_move = .White ↔ i % 2 = 0)) →
        ∀ (i : Nat) (ex : IncompleteExample), exs[i]? = some ex →
          out[i]?.map Example.outcome =
            some ((if i % 2 = 0 then (1 : Int) else -1) * whiteResultValue result)) := by
  have main : ∀ wr : Int, whiteResultOf result = .ok wr → wr = whiteResultValue result ∧
      ∀ tm : Colour, (if tm = Colour.White then wr else -wr) = outcomeSpecC1 result tm := by
    intro wr hwr
    cases result with
    | Ongoing => cases hwr
    | Draw =>
      refine ⟨by cases hwr; rfl, ?_⟩
      intro tm
      cases hwr
      cases tm <;> simp [outcomeSpecC1]
    | Winner c =>
      cases c <;> cases hwr <;>
        exact ⟨rfl, by intro tm; cases tm <;> simp [outcomeSpecC1]⟩
  obtain ⟨wr, hwr⟩ : ∃ wr, whiteResultOf result = .ok wr := by
    cases result with
    | Ongoing => exact absurd rfl h
    | Draw => exact ⟨0, rfl⟩
    | Winner c => cases c <;> exact ⟨_, rfl⟩
  obtain ⟨hwrv, hpt⟩ := main wr hwr
  refine ⟨exs.map (fun ex =>
      ex.complete (if ex.game.to_move = .White then wr else -wr)), ?_, ?_, ?_, ?_⟩
  · simp [get_examples, hwr]
  · simp
  · intro i ex hex
    simp only [List.getElem?_map, hex, Option.map_some]
    simp [IncompleteExample.complete, hpt ex.game.to_move]
  · intro halt i ex hex
    have h2 := halt i ex hex
    simp only [List.getElem?_map, hex, Option.map_some]
    simp only [IncompleteExample.complete, Option.map_some, Option.some.injEq]
    by_cases hi : i % 2 = 0
    · have htm : ex.game.to_move = .White := h2.mpr hi
      simp [htm, hi, hwrv]
    · have htm : ex.game.to_move ≠ .White := fun hc => hi (h2.mp hc)
      have htm2 : ex.game.to_move = .Black := by
        cases hc : ex.game.to_move
        · exact absurd hc htm
        · rfl
      simp [htm2, hi, hwrv]

/-- C1 witness at a concrete game won by White at an even-length opening. -/
theorem examples_completed_mover_perspective_witness :
    (GameResult.Winner .White ≠ .Ongoing) ∧
    (∃ out, get_examples (.Winner .White)
        [⟨constGame, []⟩, ⟨constGame.play 0, []⟩] = .ok out ∧
      out.length = [⟨constGame, []⟩, (⟨constGame.play 0, []⟩ : IncompleteExample)].length ∧
      (∀ (i : Nat) (ex : IncompleteExample),
        [⟨constGame, []⟩, (⟨constGame.play 0, []⟩ : IncompleteExample)][i]? = some ex →
        out[i]?.map Example.outcome =
          some (outcomeSpecC1 (.Winner .White) ex.game.to_move)) ∧
      ((∀ (i : Nat) (ex : IncompleteExample),
          [⟨constGame, []⟩, (⟨constGame.play 0, []⟩ : IncompleteExample)][i]? = some ex →
          (ex.game.to_move = .White ↔ i % 2 = 0)) →
        ∀ (i : Nat) (ex : IncompleteExample),
          [⟨constGame, []⟩, (⟨constGame.play 0, []⟩ : IncompleteExample)][i]? = some ex →
          out[i]?.map Example.outcome =
            some ((if i % 2 = 0 then (1 : Int) else -1) *
              whiteResultValue (.Winner .White)))) :=
  ⟨by simp, examples_completed_mover_perspective (.Winner .White) _ (by simp)⟩

/-! C3 -/

theorem foldl_last_max (mv : Move × Nat) :
    ∀ (xs : List (Move × Nat)) (b : Move × Nat),
      mv ∈ b :: xs → (∀ x ∈ b :: xs, x ≠ mv → x.2 < mv.2) →
      xs.foldl (fun best y => if best.2 ≤ y.2 then y else best) b = mv := by
  intro xs
  induction xs with
  | nil =>
    intro b hm _
    rcases List.mem_cons.mp hm with h1 | h1
    · simpa using h1.symm
    · simp at h1
  | cons y t ih =>
    intro b hm hu
    simp only [List.foldl_cons]
    have hmem2 : mv ∈ (if b.2 ≤ y.2 then y else b) :: t := by
      by_cases hby : b.2 ≤ y.2
      · simp only [if_pos hby]
        rcases List.mem_cons.mp hm with h1 | h1
        · by_cases hy : y = mv
          · exact List.mem_cons.mpr (Or.inl hy.symm)
          · have hlt := hu y (by simp) hy
            rw [← h1] at hby
            exact absurd hlt (by omega)
        · exact h1
      · simp only [if_neg hby]
        rcases List.mem_cons.mp hm with h1 | h1
        · exact List.mem_cons.mpr (Or.inl h1)
        · rcases List.mem_cons.mp h1 with h2 | h2
          · by_cases hb : b = mv
            · exact List.mem_cons.mpr (Or.inl hb.symm)
            · have hlt := hu b (by simp) hb
              rw [h2] at hlt
              exact absurd hlt (by omega)
          · exact List.mem_cons.mpr (Or.inr h2)
    apply ih _ hmem2
    intro x hx hne
    apply hu x _ hne
    rcases List.mem_cons.mp hx with h1 | h1
    · by_cases hby : b.2 ≤ y.2
      · simp only [if_pos hby] at h1
        simp [h1]
      · simp only [if_neg hby] at h1
        simp [h1]
    · simp [h1]

theorem maxByKeyLast_unique (l : List (Move × Nat)) (mv : Move × Nat)
    (hmem : mv ∈ l) (huniq : ∀ x ∈ l, x ≠ mv → x.2 < mv.2) :
    maxByKeyLast l = some mv := by
  cases l with
  | nil => simp at hmem
  | cons x xs =>
    simp only [maxByKeyLast]
    exact congrArg some (foldl_last_max mv xs x hmem huniq)

/-- C3 counterexample: two initialized nodes whose children mappings hold the
same entries (a permutation, i.e. the same unordered map with the same visit
counts) with a tie for the maximal visit count, on which exploitation-mode
pick_move with the same rng draw returns different moves: max_by_key keeps
the last maximum of the unordered map's iteration order, so the tie-break is
not determined by the tree and seed. -/
theorem pick_move_tie_depends_on_iteration_order :
    (Node.mk 2 0 0 0 .Ongoing
        [(0, Node.mk 1 0 0 0 .Ongoing []), (1, Node.mk 1 0 0 0 .Ongoing [])]).children.Perm
      (Node.mk 2 0 0 0 .Ongoing
        [(1, Node.mk 1 0 0 0 .Ongoing []), (0, Node.mk 1 0 0 0 .Ongoing [])]).children ∧
    (Node.mk 2 0 0 0 .Ongoing
        [(0, Node.mk 1 0 0 0 .Ongoing []),
         (1, Node.mk 1 0 0 0 .Ongoing [])]).pick_move true 0 = .ok 1 ∧
    (Node.mk 2 0 0 0 .Ongoing
        [(1, Node.mk 1 0 0 0 .Ongoing []),
         (0, Node.mk 1 0 0 0 .Ongoing [])]).pick_move true 0 = .ok 0 :=
  ⟨List.Perm.swap _ _ _, rfl, rfl⟩

/-- C3 (amended): exploitation-mode pick_move is deterministic whenever a
unique move attains the maximal visit count: two initialized nodes holding the
same children mapping (any iteration orders) and any rng draws yield that same
move.  Under ties the result instead depends on the unordered map's iteration
order, which tree state and seed do not fix. -/
theorem pick_move_exploit_deterministic_unique_max (n₁ n₂ : Node) (r₁ r₂ : Nat)
    (m : Move) (v : Nat) (h₁ : 0 < n₁.visits) (h₂ : 0 < n₂.visits)
    (hperm : n₁.children.Perm n₂.children)
    (hmem : (m, v) ∈ n₁.children.map (fun mc => (mc.1, mc.2.visits)))
    (huniq : ∀ x ∈ n₁.children.map (fun mc => (mc.1, mc.2.visits)),
      x ≠ (m, v) → x.2 < v) :
    n₁.pick_move true r₁ = .ok m ∧ n₂.pick_move true r₂ = .ok m := by
  have hpol : (n₁.children.map (fun mc => (mc.1, mc.2.visits))).Perm
      (n₂.children.map (fun mc => (mc.1, mc.2.visits))) := hperm.map _
  have k₁ := maxByKeyLast_unique _ (m, v) hmem huniq
  have k₂ := maxByKeyLast_unique _ (m, v) (hpol.mem_iff.mp hmem)
      (fun x hx => huniq x (hpol.mem_iff.mpr hx))
  have e₁ : n₁.check_init = .ok () := by simp [Node.check_init, inited_of_pos h₁]
  have e₂ : n₂.check_init = .ok () := by simp [Node.check_init, inited_of_pos h₂]
  exact ⟨by simp [Node.pick_move, Node.improved_policy, e₁, k₁],
         by simp [Node.pick_move, Node.improved_policy, e₂, k₂]⟩

/-- C3 witness: the two orders of a children mapping with visit counts 1 and 2
both pick the move with 2 visits, for different rng draws. -/
theorem pick_move_exploit_deterministic_unique_max_witness :
    (0 < uniqNodeA.visits ∧ 0 < uniqNodeB.visits ∧
      uniqNodeA.children.Perm uniqNodeB.children ∧
      (7, 2) ∈ uniqNodeA.children.map (fun mc => (mc.1, mc.2.visits)) ∧
      (∀ x ∈ uniqNodeA.children.map (fun mc => (mc.1, mc.2.visits)),
        x ≠ (7, 2) → x.2 < 2)) ∧
    (uniqNodeA.pick_move true 0 = .ok 7 ∧ uniqNodeB.pick_move true 3 = .ok 7) :=
  ⟨⟨by decide, by decide,
    by simp only [uniqNodeA, uniqNodeB, Node.children]; exact List.Perm.swap _ _ _,
    by decide, by decide⟩,
   pick_move_exploit_deterministic_unique_max uniqNodeA uniqNodeB 0 3 7 2
     (by decide) (by decide)
     (by simp only [uniqNodeA, uniqNodeB, Node.children]; exact List.Perm.swap _ _ _)
     (by decide) (by decide)⟩

/-! C5 -/

theorem process_batch_queue (E : BatchEval) (s : BPState) (b : Batch)
    (rest : List Batch) (h : s.batch_queue = b :: rest) :
    (process_batch E s).batch_queue = rest := by
  simp [process_batch, h]

theorem process_pipeline_queue_nil (E : BatchEval) (s : BPState) :
    (process_pipeline E s).batch_queue = [] := by
  generalize hk : s.batch_queue.length = k
  induction k generalizing s with
  | zero =>
    rw [process_pipeline.eq_def]
    cases h : s.batch_queue with
    | nil => simpa [h] using h
    | cons b rest => rw [h] at hk; simp at hk
  | succ k ih =>
    rw [process_pipeline.eq_def]
    cases h : s.batch_queue with
    | nil => simp [h]
    | cons b rest =>
      simp only []
      apply ih
      rw [process_batch_queue E s b rest h]
      rw [h] at hk
      simpa using hk

/-- C5: play_move factors through a fully drained pipeline: it first resolves
pending batches until none remain (process_pipeline always ends with an empty
queue), and only then -- on the drained state, whose statistics are final --
records the example from the improved policy, detaches the played subtree
discarding the siblings, and refills the queue.  No move is committed while a
batch is still pending. -/
theorem play_move_drains_all_before_commit (sel : List (Move × Node) → Nat)
    (E : BatchEval) (g : GameState) (turn : Move) (s : BPState) :
    (process_pipeline E s).batch_queue = [] ∧
    play_move sel E g turn s = commit_refill sel g turn (process_pipeline E s) :=
  ⟨process_pipeline_queue_nil E s, rfl⟩

/-! C6 -/

theorem runRollouts_eq_trace (sel : List (Move × Node) → Nat) (g : GameState) :
    ∀ (k : Nat) (n : Node),
      runRollouts sel g k n = ((rolloutTrace sel g k n).1,
        ((rolloutTrace sel g k n).2.filter (fun x => x.2.2 == .Ongoing)).map
          (fun x => (x.1, x.2.1))) := by
  intro k
  induction k with
  | zero => intro n; rfl
  | succ k ih =>
    intro n
    simp only [runRollouts, rolloutTrace, ih]
    by_cases h : (virtual_rollout sel n g).res = .Ongoing <;> simp [h]

/-- C6: of the batch_size virtual rollouts that send_work performs from the
current root (threading the tree through them), exactly those whose leaf is
Ongoing contribute their leaf position to the submitted batch, in rollout
order and paired index by index with their recorded paths; rollouts resolving
to a terminal leaf contribute nothing. -/
theorem send_work_submits_exactly_ongoing (sel : List (Move × Node) → Nat)
    (g : GameState) (s : BPState) :
    (send_work sel g s).node = (rolloutTrace sel g s.batch_size s.node).1 ∧
    (send_work sel g s).batch_queue = s.batch_queue ++
      [⟨((rolloutTrace sel g s.batch_size s.node).2.filter
           (fun x => x.2.2 == .Ongoing)).map Prod.fst,
        ((rolloutTrace sel g s.batch_size s.node).2.filter
           (fun x => x.2.2 == .Ongoing)).map (fun x => x.2.1)⟩] ∧
    (((rolloutTrace sel g s.batch_size s.node).2.filter
        (fun x => x.2.2 == .Ongoing)).map Prod.fst).length =
      (((rolloutTrace sel g s.batch_size s.node).2.filter
        (fun x => x.2.2 == .Ongoing)).map (fun x => x.2.1)).length := by
  refine ⟨?_, ?_, by simp⟩ <;>
    simp [send_work, runRollouts_eq_trace, List.map_map, Function.comp]

/-! C4 -/

theorem send_work_queue_len (sel : List (Move × Node) → Nat) (g : GameState)
    (s : BPState) :
    (send_work sel g s).batch_queue.length = s.batch_queue.length + 1 := by
  simp [send_work]

theorem ibp_inv (E : BatchEval) (t : IBPState) (h : IBPReach E t) :
    t.ids.length = t.bp.batch_queue.length ∧
    t.drained = List.range t.drained.length ∧
    t.ids = List.range' t.drained.length t.ids.length ∧
    t.next_id = t.drained.length + t.ids.length := by
  induction h with
  | init s hs => exact ⟨by simp [hs], rfl, rfl, rfl⟩
  | submit sel g t ht ih =>
    obtain ⟨i1, i2, i3, i4⟩ := ih
    refine ⟨?_, ?_, ?_, ?_⟩
    · simp [isubmit, send_work_queue_len, i1]
    · simpa [isubmit] using i2
    · simp only [isubmit]
      rw [List.length_append, List.length_singleton, List.range'_1_concat]
      rw [← i3, ← i4]
    · simp only [isubmit, List.length_append, List.length_singleton]
      omega
  | drain t ht ih =>
    obtain ⟨i1, i2, i3, i4⟩ := ih
    cases hids : t.ids with
    | nil =>
      have heq : idrain E t = t := by simp [idrain, hids]
      rw [heq]
      exact ⟨i1, i2, i3, i4⟩
    | cons i rest =>
      rw [hids] at i3
      rw [List.length_cons, List.range'_succ] at i3
      have hi : i = t.drained.length := (List.cons.injEq .. ▸ i3).1
      have hrest : rest = List.range' (t.drained.length + 1) rest.length :=
        (List.cons.injEq .. ▸ i3).2
      have hq : ∃ b qrest, t.bp.batch_queue = b :: qrest ∧ qrest.length = rest.length := by
        rw [hids] at i1
        cases hbq : t.bp.batch_queue with
        | nil => rw [hbq] at i1; simp at i1
        | cons b qrest =>
          rw [hbq] at i1
          simp only [List.length_cons] at i1
          exact ⟨b, qrest, rfl, by omega⟩
      obtain ⟨b, qrest, hbq, hql⟩ := hq
      refine ⟨?_, ?_, ?_, ?_⟩
      · simp [idrain, hids, process_batch_queue E t.bp b qrest hbq, hql]
      · simp only [idrain, hids, List.length_append, List.length_singleton]
        rw [List.range_succ, ← i2, hi]
      · simp only [idrain, hids, List.length_append, List.length_singleton]
        exact hrest
      · simp only [idrain, hids, List.length_append, List.length_singleton]
        rw [hids, List.length_cons] at i4
        omega

/-- C4: within one tree's pipeline the pending batches are drained in strictly
FIFO order.  In every reachable instrumented pipeline state the ghost
identities pair off with the queue, the drained identities followed by the
pending ones list all submissions in submission order (so every drained batch
was submitted before every still-pending one), and a drain step pops exactly
the front batch -- whose identity is the oldest outstanding one -- and
devirtualizes every path it contains via process_batch. -/
theorem pipeline_drains_fifo (E : BatchEval) (t : IBPState) (h : IBPReach E t) :
    t.ids.length = t.bp.batch_queue.length ∧
    t.drained ++ t.ids = List.range t.next_id ∧
    (∀ j ∈ t.drained, ∀ i ∈ t.ids, j < i) ∧
    (∀ i rest, t.ids = i :: rest →
      idrain E t = ⟨process_batch E t.bp, rest, t.next_id, t.drained ++ [i]⟩ ∧
      i = t.drained.length) := by
  obtain ⟨i1, i2, i3, i4⟩ := ibp_inv E t h
  refine ⟨i1, ?_, ?_, ?_⟩
  · calc t.drained ++ t.ids
        = List.range' 0 t.drained.length ++
            List.range' t.drained.length t.ids.length := by
          rw [← List.range_eq_range', ← i2, ← i3]
      _ = List.range' 0 (t.ids.length + t.drained.length) := by
          simpa using List.range'_append_1 0 t.drained.length t.ids.length
      _ = List.range t.next_id := by
          rw [List.range_eq_range', i4, Nat.add_comm]
  · intro j hj i hi
    rw [i2] at hj
    rw [i3] at hi
    have hj2 := List.mem_range.mp hj
    obtain ⟨a, _, rfl⟩ := List.mem_range'.mp hi
    omega
  · intro i rest hir
    constructor
    · simp [idrain, hir]
    · rw [hir, List.length_cons, List.range'_succ] at i3
      exact (List.cons.injEq .. ▸ i3).1

/-- C4 witness at the fresh instrumented pipeline state. -/
theorem pipeline_drains_fifo_witness :
    startIBP.ids.length = startIBP.bp.batch_queue.length ∧
    startIBP.drained ++ startIBP.ids = List.range startIBP.next_id ∧
    (∀ j ∈ startIBP.drained, ∀ i ∈ startIBP.ids, j < i) ∧
    (∀ i rest, startIBP.ids = i :: rest →
      idrain constBE startIBP =
        ⟨process_batch constBE startIBP.bp, rest, startIBP.next_id,
         startIBP.drained ++ [i]⟩ ∧
      i = startIBP.drained.length) :=
  pipeline_drains_fifo constBE startIBP (IBPReach.init _ rfl)

/-! C9 -/

/-- C9: completing the collected examples while the game result is still
Ongoing fails fast (the unreachable! arm) and produces no completed examples,
while every terminal result (a winner or a draw) yields completed examples. -/
theorem get_examples_requires_terminal (exs : List IncompleteExample) :
    get_examples .Ongoing exs = .error .unreach ∧
    (∀ c, ∃ out, get_examples (.Winner c) exs = .ok out) ∧
    (∃ out, get_examples .Draw exs = .ok out) := by
  refine ⟨rfl, fun c => ?_, ⟨_, rfl⟩⟩
  cases c <;> exact ⟨_, rfl⟩

/-! C7 -/

/-- C7: the worker loop body answers an empty batch with the default
zero-valued response, independently of the evaluator (so the evaluator is not
consulted), and answers any non-empty batch with exactly the evaluator's
result for it, preserving the response-index alignment the evaluator contract
guarantees. -/
theorem worker_empty_batch_short_circuit (E E' : BatchEval) (g : GameState)
    (gs : List GameState) :
    workerResponse E [] = ([], []) ∧
    workerResponse E [] = workerResponse E' [] ∧
    workerResponse E (g :: gs) = E (g :: gs) :=
  ⟨rfl, rfl, rfl⟩

/-! C8 -/

/-- C8: on a node with zero visits each search-output reader (improved_policy,
pick_move, play) fails fast via the initialization assertion; on a node with
at least one completed visit improved_policy succeeds and returns each child
move paired with that child's raw (unnormalized) visit count. -/
theorem search_output_readers_assert (vv : Nat) (x p : Int) (rr : GameResult)
    (cs : List (Move × Node)) (v r turn : Nat) (expl : Bool) :
    (Node.mk 0 vv x p rr cs).improved_policy = .error .assertFail ∧
    (Node.mk 0 vv x p rr cs).pick_move expl r = .error .assertFail ∧
    (Node.mk 0 vv x p rr cs).play turn = .error .assertFail ∧
    (Node.mk (v + 1) vv x p rr cs).improved_policy =
      .ok (cs.map (fun mc => (mc.1, mc.2.visits))) :=
  ⟨rfl, rfl, rfl, by simp [Node.improved_policy, Node.check_init, Node.inited]⟩

/-! C10 -/

/-- C10: on an initialized node all of whose children have zero visits (the
state after exactly one completed rollout expanded it), sampling-mode
pick_move fails: the WeightedIndex over the all-zero visit counts errors and
the unwrap panics, so one completed rollout is not a sufficient precondition
for sampling-mode selection. -/
theorem sampling_pick_fails_all_zero (n : Node) (r : Nat)
    (h1 : 0 < n.visits) (h2 : n.children ≠ [])
    (h0 : ∀ mc ∈ n.children, mc.2.visits = 0) :
    n.pick_move false r = .error .unwrapFail := by
  have hin : n.check_init = .ok () := by
    simp [Node.check_init, inited_of_pos h1]
  have hsum : (n.children.map (fun mc => mc.2.visits)).sum = 0 := by
    apply List.sum_eq_zero
    intro a ha
    obtain ⟨mc, hmc, rfl⟩ := List.mem_map.mp ha
    exact h0 mc hmc
  have hco : ((fun (mc : Move × Nat) => mc.2) ∘ (fun (mc : Move × Node) => (mc.1, mc.2.visits)))
      = fun (mc : Move × Node) => mc.2.visits := by
    funext mc
    rfl
  simp [Node.pick_move, Node.improved_policy, hin, List.map_map, hco, hsum]

/-- C10 witness: a node with one real visit and two fresh zero-visit
children. -/
theorem sampling_pick_fails_all_zero_witness :
    (0 < zeroKidsNode.visits ∧ zeroKidsNode.children ≠ [] ∧
      (∀ mc ∈ zeroKidsNode.children, mc.2.visits = 0)) ∧
    zeroKidsNode.pick_move false 5 = .error .unwrapFail :=
  ⟨⟨by decide, by simp [zeroKidsNode], by simp [zeroKidsNode, Node.new]⟩,
   sampling_pick_fails_all_zero zeroKidsNode 5 (by decide)
     (by simp [zeroKidsNode]) (by simp [zeroKidsNode, Node.new])⟩

/-! C2: helper lemmas about pending-path routing and children updates. -/

theorem sub_nil (m : Move) : sub [] m = [] := rfl

theorem sub_cons_hit (q : Path) (P : List Path) (m : Move) :
    sub ((m :: q) :: P) m = q :: sub P m := by
  simp [sub]

theorem sub_cons_miss (q : Path) (P : List Path) (m : Move) (h : q.head? ≠ some m) :
    sub (q :: P) m = sub P m := by
  simp [sub, h]

theorem sub_append (P Q : List Path) (m : Move) :
    sub (P ++ Q) m = sub P m ++ sub Q m := by
  simp [sub, List.filter_append]

theorem sub_singleton_cons (m : Move) (p : Path) : sub [m :: p] m = [p] := by
  simp [sub]

theorem sub_singleton_miss (m' m : Move) (p : Path) (h : m' ≠ m) :
    sub [m' :: p] m = [] := by
  simp [sub, h]

theorem sub_eq_nil_of_all_nil {P : List Path} (h : ∀ q ∈ P, q = []) (m : Move) :
    sub P m = [] := by
  induction P with
  | nil => rfl
  | cons q t ih =>
    have hq := h q (by simp)
    subst hq
    rw [sub_cons_miss _ _ _ (by simp)]
    exact ih (fun q hq => h q (by simp [hq]))

theorem nodupKeys_unique {cs : List (Move × Node)} (h : (cs.map Prod.fst).Nodup)
    {a b : Move × Node} (ha : a ∈ cs) (hb : b ∈ cs) (he : a.1 = b.1) : a = b := by
  induction cs with
  | nil => simp at ha
  | cons c t ih =>
    simp only [List.map_cons, List.nodup_cons] at h
    rcases List.mem_cons.mp ha with h1 | h1 <;> rcases List.mem_cons.mp hb with h2 | h2
    · rw [h1, h2]
    · exfalso
      exact h.1 (List.mem_map.mpr ⟨b, h2, by rw [← he, h1]⟩)
    · exfalso
      exact h.1 (List.mem_map.mpr ⟨a, h1, by rw [he, h2]⟩)
    · exact ih h.2 h1 h2

theorem keys_setChild (cs : List (Move × Node)) (m : Move) (c : Node) :
    (setChild cs m c).map Prod.fst = cs.map Prod.fst := by
  rw [setChild, List.map_map]
  apply List.map_congr_left
  intro a _
  by_cases h : a.1 = m <;> simp [h]

theorem mem_setChild {cs : List (Move × Node)} {m : Move} {c : Node} {x : Move × Node}
    (hx : x ∈ setChild cs m c) : x = (m, c) ∨ (x ∈ cs ∧ x.1 ≠ m) := by
  obtain ⟨a, ha, hax⟩ := List.mem_map.mp hx
  by_cases h : a.1 == m
  · left
    have he : a.1 = m := by simpa using h
    rw [← hax, if_pos h, he]
  · right
    rw [← hax, if_neg h]
    exact ⟨ha, fun he => h (by simp [he])⟩

theorem keys_upd (cs : List (Move × Node)) (m : Move) (f : Node → Node) :
    (updChild cs m f).map Prod.fst = cs.map Prod.fst := by
  rw [updChild, List.map_map]
  apply List.map_congr_left
  intro a _
  by_cases h : a.1 = m <;> simp [h]

theorem mem_upd {cs : List (Move × Node)} {m : Move} {f : Node → Node} {x : Move × Node}
    (hx : x ∈ updChild cs m f) :
    (∃ a ∈ cs, a.1 = m ∧ x = (m, f a.2)) ∨ (x ∈ cs ∧ x.1 ≠ m) := by
  obtain ⟨a, ha, hax⟩ := List.mem_map.mp hx
  by_cases h : a.1 == m
  · left
    have he : a.1 = m := by simpa using h
    exact ⟨a, ha, he, by rw [← hax, if_pos h, he]⟩
  · right
    rw [← hax, if_neg h]
    exact ⟨ha, fun he => h (by simp [he])⟩

theorem rollout_preserve (sel : List (Move × Node) → Nat) (t : Node) (g : GameState) :
    ∀ (P : List Path), RInv t → Bal g t P →
      RInv (virtual_rollout sel t g).tree ∧
      ((virtual_rollout sel t g).res = .Ongoing →
        (virtual_rollout sel t g).leaf = playPath g (virtual_rollout sel t g).path ∧
        Bal g (virtual_rollout sel t g).tree (P ++ [(virtual_rollout sel t g).path])) ∧
      ((virtual_rollout sel t g).res ≠ .Ongoing →
        Bal g (virtual_rollout sel t g).tree P) := by
  induction t, g using virtual_rollout.induct sel with
  | case1 v vv x p cs g hcs hw =>
    -- unexpanded Ongoing node at an Ongoing position: pending leaf
    have hvr : virtual_rollout sel (Node.mk v vv x p .Ongoing cs) g
        = ⟨.mk v (vv + 1) x p .Ongoing cs, [], .Ongoing, g, 0⟩ := by
      rw [virtual_rollout]
      simp [hcs, hw]
    intro P hR hB
    rw [hvr]
    cases hR with
    | mk _ _ _ _ _ _ h0 h1 hk hc =>
    cases hB with
    | mk _ _ _ _ _ _ _ _ hlen hleaf hhead hcB =>
    refine ⟨RInv.mk v (vv + 1) x p .Ongoing cs h0 h1 hk hc, fun _ => ⟨rfl, ?_⟩,
            fun hne => absurd rfl hne⟩
    constructor
    · simp [hlen]
    · exact fun _ => ⟨rfl, hw⟩
    · intro q hq m rest hqe
      rcases List.mem_append.mp hq with h | h
      · exact hhead q h m rest hqe
      · rw [List.mem_singleton.mp h] at hqe
        cases hqe
    · intro mc hmc
      have : sub (P ++ [[]]) mc.1 = sub P mc.1 := by
        rw [sub_append, sub_cons_miss _ _ _ (by simp), sub_nil, List.append_nil]
      rw [this]
      exact hcB mc hmc
  | case2 v vv x p cs g hcs hno =>
    -- unexpanded node whose position is terminal: newly-discovered terminal
    cases hw : g.winner with
    | Ongoing => exact absurd hw hno
    | Winner c =>
      have hrne : (GameResult.Winner c) ≠ .Ongoing := by simp
      have hvr : virtual_rollout sel (Node.mk v vv x p .Ongoing cs) g
          = ⟨.mk (v + 1) vv (x + (GameResult.Winner c).score g.to_move) p
               (.Winner c) cs, [], .Winner c, g, (GameResult.Winner c).score g.to_move⟩ := by
        rw [virtual_rollout]
        simp [hcs, hw]
      intro P hR hB
      rw [hvr]
      cases hR with
      | mk _ _ _ _ _ _ h0 h1 hk hc =>
      cases hB with
      | mk _ _ _ _ _ _ _ _ hlen hleaf hhead hcB =>
      have hcsnil : cs = [] := List.length_eq_zero.mp hcs
      have hnoleaf : [] ∉ P := fun h => hrne (hw ▸ (hleaf h).2)
      refine ⟨?_, fun habs => absurd habs hrne, fun _ => ?_⟩
      · refine RInv.mk _ _ _ _ _ _ (fun h => absurd h (by omega)) ?_ hk hc
        intro _
        rw [hcsnil]
        simp
      · exact Bal.mk _ _ _ _ _ _ _ _ hlen (fun h => absurd h hnoleaf) hhead hcB
    | Draw =>
      have hrne : GameResult.Draw ≠ .Ongoing := by simp
      have hvr : virtual_rollout sel (Node.mk v vv x p .Ongoing cs) g
          = ⟨.mk (v + 1) vv (x + GameResult.Draw.score g.to_move) p
               .Draw cs, [], .Draw, g, GameResult.Draw.score g.to_move⟩ := by
        rw [virtual_rollout]
        simp [hcs, hw]
      intro P hR hB
      rw [hvr]
      cases hR with
      | mk _ _ _ _ _ _ h0 h1 hk hc =>
      cases hB with
      | mk _ _ _ _ _ _ _ _ hlen hleaf hhead hcB =>
      have hcsnil : cs = [] := List.length_eq_zero.mp hcs
      have hnoleaf : [] ∉ P := fun h => hrne (hw ▸ (hleaf h).2)
      refine ⟨?_, fun habs => absurd habs hrne, fun _ => ?_⟩
      · refine RInv.mk _ _ _ _ _ _ (fun h => absurd h (by omega)) ?_ hk hc
        intro _
        rw [hcsnil]
        simp
      · exact Bal.mk _ _ _ _ _ _ _ _ hlen (fun h => absurd h hnoleaf) hhead hcB
  | case3 v vv x p cs g hcs mc out hres ih1 =>
    -- descend into the selected child; the child's leaf awaits evaluation
    have hvr : virtual_rollout sel (Node.mk v vv x p .Ongoing cs) g
        = ⟨.mk v (vv + 1) x p .Ongoing (setChild cs mc.1 out.tree),
           mc.1 :: out.path, .Ongoing, out.leaf, 0⟩ := by
      rw [virtual_rollout]
      rw [if_pos rfl, dif_neg hcs]
      show (if out.res = GameResult.Ongoing then
          ({ tree := .mk v (vv + 1) x p .Ongoing (setChild cs mc.1 out.tree),
             path := mc.1 :: out.path, res := .Ongoing, leaf := out.leaf,
             backed := 0 } : RolloutOut)
        else
          { tree := .mk (v + 1) vv (x - out.backed) p .Ongoing (setChild cs mc.1 out.tree),
            path := mc.1 :: out.path, res := out.res, leaf := out.leaf,
            backed := -out.backed }) = _
      rw [if_pos hres]
    intro P hR hB
    rw [hvr]
    have hmc_mem : mc ∈ cs := List.get_mem ..
    cases hR with
    | mk _ _ _ _ _ _ h0 h1 hk hc =>
    cases hB with
    | mk _ _ _ _ _ _ _ _ hlen hleaf hhead hcB =>
    have hIH := ih1 (sub P mc.1) (hc mc hmc_mem) (hcB mc hmc_mem)
    have hIH2 := hIH.2.1 hres
    have hset_ne : setChild cs mc.1 out.tree ≠ [] := by
      intro hnil
      apply hcs
      have := congrArg List.length hnil
      simpa [setChild] using this
    refine ⟨?_, fun _ => ⟨by rw [playPath_cons]; exact hIH2.1, ?_⟩,
            fun hne => absurd rfl hne⟩
    · refine RInv.mk _ _ _ _ _ _ ?_ (fun _ => iff_of_true rfl hset_ne)
        (by rw [keys_setChild]; exact hk) ?_
      · intro h
        exact absurd ((h0 h).2) (fun hnil => hcs (by rw [hnil]; rfl))
      · intro mc' hmc'
        rcases mem_setChild hmc' with h | ⟨hmem, _⟩
        · rw [h]
          exact hIH.1
        · exact hc mc' hmem
    · refine Bal.mk _ _ _ _ _ _ _ _ ?_ ?_ ?_ ?_
      · simp [hlen]
      · intro h
        rcases List.mem_append.mp h with h | h
        · exact hleaf h
        · simp at h
      · intro q hq m' rest' hqe
        rw [keys_setChild]
        rcases List.mem_append.mp hq with h | h
        · exact hhead q h m' rest' hqe
        · rw [List.mem_singleton.mp h] at hqe
          obtain ⟨h1, h2⟩ := List.cons_eq_cons.mp hqe
          rw [← h1]
          exact List.mem_map.mpr ⟨mc, hmc_mem, rfl⟩
      · intro mc' hmc'
        rcases mem_setChild hmc' with h | ⟨hmem, hne⟩
        · rw [h]
          simp only
          rw [sub_append, sub_singleton_cons]
          exact hIH2.2
        · rw [sub_append, sub_singleton_miss _ _ _ (fun he => hne he.symm),
            List.append_nil]
          exact hcB mc' hmem
  | case4 v vv x p cs g hcs mc out hres ih1 =>
    -- descend into the selected child; the child resolved to a terminal leaf
    have hvr : virtual_rollout sel (Node.mk v vv x p .Ongoing cs) g
        = ⟨.mk (v + 1) vv (x - out.backed) p .Ongoing (setChild cs mc.1 out.tree),
           mc.1 :: out.path, out.res, out.leaf, -out.backed⟩ := by
      rw [virtual_rollout]
      rw [if_pos rfl, dif_neg hcs]
      show (if out.res = GameResult.Ongoing then
          ({ tree := .mk v (vv + 1) x p .Ongoing (setChild cs mc.1 out.tree),
             path := mc.1 :: out.path, res := .Ongoing, leaf := out.leaf,
             backed := 0 } : RolloutOut)
        else
          { tree := .mk (v + 1) vv (x - out.backed) p .Ongoing (setChild cs mc.1 out.tree),
            path := mc.1 :: out.path, res := out.res, leaf := out.leaf,
            backed := -out.backed }) = _
      rw [if_neg hres]
    intro P hR hB
    rw [hvr]
    have hmc_mem : mc ∈ cs := List.get_mem ..
    cases hR with
    | mk _ _ _ _ _ _ h0 h1 hk hc =>
    cases hB with
    | mk _ _ _ _ _ _ _ _ hlen hleaf hhead hcB =>
    have hIH := ih1 (sub P mc.1) (hc mc hmc_mem) (hcB mc hmc_mem)
    have hIH3 := hIH.2.2 hres
    have hset_ne : setChild cs mc.1 out.tree ≠ [] := by
      intro hnil
      apply hcs
      have := congrArg List.length hnil
      simpa [setChild] using this
    refine ⟨?_, fun habs => absurd habs hres, fun _ => ?_⟩
    · refine RInv.mk _ _ _ _ _ _ (fun h => absurd h (by omega))
        (fun _ => iff_of_true rfl hset_ne)
        (by rw [keys_setChild]; exact hk) ?_
      intro mc' hmc'
      rcases mem_setChild hmc' with h | ⟨hmem, _⟩
      · rw [h]
        exact hIH.1
      · exact hc mc' hmem
    · refine Bal.mk _ _ _ _ _ _ _ _ hlen hleaf ?_ ?_
      · intro q hq m' rest' hqe
        rw [keys_setChild]
        exact hhead q hq m' rest' hqe
      · intro mc' hmc'
        rcases mem_setChild hmc' with h | ⟨hmem, _⟩
        · rw [h]
          simp only
          exact hIH3
        · exact hcB mc' hmem
  | case5 v vv x p r cs g hr =>
    -- node already known terminal: back up the stored result
    have hvr : virtual_rollout sel (Node.mk v vv x p r cs) g
        = ⟨.mk (v + 1) vv (x + r.score g.to_move) p r cs, [], r, g,
           r.score g.to_move⟩ := by
      rw [virtual_rollout]
      simp [hr]
    intro P hR hB
    rw [hvr]
    cases hR with
    | mk _ _ _ _ _ _ h0 h1 hk hc =>
    cases hB with
    | mk _ _ _ _ _ _ _ _ hlen hleaf hhead hcB =>
    have hv : 0 < v := by
      rcases Nat.eq_zero_or_pos v with h | h
      · exact absurd (h0 h).1 hr
      · exact h
    refine ⟨RInv.mk _ _ _ _ _ _ (fun h => absurd h (by omega)) (fun _ => h1 hv) hk hc,
            fun habs => absurd habs hr, fun _ => ?_⟩
    exact Bal.mk _ _ _ _ _ _ _ _ hlen hleaf hhead hcB

theorem devirt_preserve (E : StateEval) (hE : EvalOk E) :
    ∀ (p : Path) (g : GameState) (t : Node) (P : List Path),
      RInv t → Bal g t (p :: P) →
      RInv (devirtualize_path t p (E (playPath g p))) ∧
      Bal g (devirtualize_path t p (E (playPath g p))) P := by
  intro p
  induction p with
  | nil =>
    intro g t P hR hB
    cases t with
    | mk v vv x pr r cs =>
    cases hR with
    | mk _ _ _ _ _ _ h0 h1 hk hc =>
    cases hB with
    | mk _ _ _ _ _ _ _ _ hlen hleaf hhead hcB =>
    have hOng := hleaf (by simp)
    have hEg := hE g hOng.2
    have hlen2 : vv = P.length + 1 := by simpa using hlen
    rw [playPath_nil]
    cases cs with
    | nil =>
      -- first path to reach the leaf: expand with the evaluated policy
      simp only [devirtualize_path, List.isEmpty_nil, if_true]
      have hall : ∀ q ∈ P, q = [] := by
        intro q hq
        cases q with
        | nil => rfl
        | cons m0 rest0 =>
          exact absurd (hhead (m0 :: rest0) (by simp [hq]) m0 rest0 rfl) (by simp)
      constructor
      · refine RInv.mk _ _ _ _ _ _ (fun h => absurd h (by omega)) ?_ ?_ ?_
        · intro _
          refine iff_of_true hOng.1 ?_
          simp only [ne_eq, List.map_eq_nil_iff]
          exact hEg.1
        · rw [List.map_map]
          have hco : (Prod.fst ∘ fun mp : Move × Int => (mp.1, Node.mk 0 0 0 mp.2 .Ongoing []))
              = Prod.fst := funext (fun mp => rfl)
          rw [hco]
          exact hEg.2
        · intro mc hmc
          obtain ⟨mp, _, hme⟩ := List.mem_map.mp hmc
          rw [← hme]
          exact RInv.mk _ _ _ _ _ _ (fun _ => ⟨rfl, rfl⟩) (fun h => absurd h (by omega))
            (by simp) (by intro mc' h; simp at h)
      · refine Bal.mk _ _ _ _ _ _ _ _ (by omega) (fun _ => hOng) ?_ ?_
        · intro q hq m0 rest0 hqe
          rw [hall q hq] at hqe
          cases hqe
        · intro mc hmc
          rw [sub_eq_nil_of_all_nil hall]
          obtain ⟨mp, _, hme⟩ := List.mem_map.mp hmc
          rw [← hme]
          exact Bal.mk _ _ _ _ _ _ _ _ rfl (fun h => absurd h (by simp))
            (fun q hq => absurd hq (by simp)) (fun mc' h => absurd h (by simp))
    | cons c0 ct =>
      -- another path already expanded the leaf: statistics only
      simp only [devirtualize_path, List.isEmpty_cons, if_false, Bool.false_eq_true]
      constructor
      · refine RInv.mk _ _ _ _ _ _ (fun h => absurd h (by omega))
          (fun _ => iff_of_true hOng.1 (by simp)) hk hc
      · refine Bal.mk _ _ _ _ _ _ _ _ (by omega) (fun _ => hOng) ?_ ?_
        · intro q hq m0 rest0 hqe
          exact hhead q (by simp [hq]) m0 rest0 hqe
        · intro mc hmc
          have hthis := hcB mc hmc
          rw [sub_cons_miss _ _ _ (by simp)] at hthis
          exact hthis
  | cons m rest ih =>
    intro g t P hR hB
    cases t with
    | mk v vv x pr r cs =>
    cases hR with
    | mk _ _ _ _ _ _ h0 h1 hk hc =>
    cases hB with
    | mk _ _ _ _ _ _ _ _ hlen hleaf hhead hcB =>
    have hmkeys : m ∈ cs.map Prod.fst := hhead (m :: rest) (by simp) m rest rfl
    obtain ⟨c0, hc0⟩ : ∃ c0, (m, c0) ∈ cs := by
      obtain ⟨a, ha, hae⟩ := List.mem_map.mp hmkeys
      refine ⟨a.2, ?_⟩
      have hax : (m, a.2) = a := by rw [← hae]
      rw [hax]
      exact ha
    have hcs_ne : cs ≠ [] := List.ne_nil_of_mem hc0
    have hrOng : r = .Ongoing := by
      rcases Nat.eq_zero_or_pos v with hv | hv
      · exact absurd (h0 hv).2 hcs_ne
      · exact (h1 hv).mpr hcs_ne
    have hBc : Bal (g.play m) c0 (rest :: sub P m) := by
      have hthis := hcB (m, c0) hc0
      rw [sub_cons_hit] at hthis
      exact hthis
    have hIH := ih (g.play m) c0 (sub P m) (hc (m, c0) hc0) hBc
    rw [playPath_cons]
    simp only [devirtualize_path]
    have hlen2 : vv = P.length + 1 := by simpa using hlen
    constructor
    · refine RInv.mk _ _ _ _ _ _ (fun h => absurd h (by omega))
        (fun _ => iff_of_true hrOng (by simp [updChild, hcs_ne])) (by rw [keys_upd]; exact hk) ?_
      intro mc' hmc'
      rcases mem_upd hmc' with ⟨a, ha, hak, hax⟩ | ⟨hmem, _⟩
      · have haeq : a = (m, c0) := nodupKeys_unique hk ha hc0 (by rw [hak])
        rw [hax, haeq]
        exact hIH.1
      · exact hc mc' hmem
    · refine Bal.mk _ _ _ _ _ _ _ _ (by omega) ?_ ?_ ?_
      · intro h
        exact hleaf (by simp [h])
      · intro q hq m' rest' hqe
        rw [keys_upd]
        exact hhead q (by simp [hq]) m' rest' hqe
      · intro mc' hmc'
        rcases mem_upd hmc' with ⟨a, ha, hak, hax⟩ | ⟨hmem, hne⟩
        · have haeq : a = (m, c0) := nodupKeys_unique hk ha hc0 (by rw [hak])
          rw [hax, haeq]
          exact hIH.2
        · have hthis := hcB mc' hmem
          rw [sub_cons_miss _ _ _ (by simp; exact fun he => hne he.symm)] at hthis
          exact hthis

theorem commit_preserve {g : GameState} {t : Node} {m : Move} {c : Node}
    (hR : RInv t) (hB : Bal g t []) (hm : (m, c) ∈ t.children) :
    RInv c ∧ Bal (g.play m) c [] := by
  cases t with
  | mk v vv x pr r cs =>
  cases hR with
  | mk _ _ _ _ _ _ h0 h1 hk hc =>
  cases hB with
  | mk _ _ _ _ _ _ _ _ hlen hleaf hhead hcB =>
  have hm2 : (m, c) ∈ cs := hm
  refine ⟨hc (m, c) hm2, ?_⟩
  have hthis := hcB (m, c) hm2
  rw [sub_nil] at hthis
  exact hthis

theorem verify_of_inv : ∀ (g : GameState) (t : Node) (P : List Path),
    Bal g t P → RInv t → P = [] → verify_invariants t = true := by
  intro g t P hB
  induction hB with
  | mk g v vv x p r cs P hlen hleaf hhead hcB ih =>
    intro hR hP
    subst hP
    cases hR with
    | mk _ _ _ _ _ _ h0 h1 hk hc =>
    rw [verify_invariants.eq_def]
    simp only [Bool.and_eq_true, beq_iff_eq, List.all_eq_true]
    refine ⟨⟨by simpa using hlen, ?_⟩, ?_⟩
    · cases v with
      | zero =>
        obtain ⟨hr0, hcs0⟩ := h0 rfl
        simp [hr0, hcs0]
      | succ k =>
        have hiff := h1 (by omega)
        rcases hr : r with _ | _ | _
        · have : cs ≠ [] := hiff.mp hr
          simp only [beq_iff_eq]
          have : cs.length ≠ 0 := fun h => this (List.length_eq_zero.mp h)
          simp [hr, this]
        · have hcs0 : cs = [] := by
            by_contra hne
            exact absurd (hiff.mpr hne) (by simp [hr])
          simp [hr, hcs0]
        · have hcs0 : cs = [] := by
            by_contra hne
            exact absurd (hiff.mpr hne) (by simp [hr])
          simp [hr, hcs0]
    · intro mc hmc
      have hmem := (List.mem_attach cs mc)
      exact ih mc.1 mc.2 (hc mc.1 mc.2) (sub_eq_nil_of_all_nil (by intro q hq; simp at hq) mc.1.1)

theorem sreach_inv (E : StateEval) (hE : EvalOk E) :
    ∀ (g : GameState) (t : Node) (P : List Path),
      SReach E g t P → RInv t ∧ Bal g t P := by
  intro g t P h
  induction h with
  | init g =>
    constructor
    · exact RInv.mk _ _ _ _ _ _ (fun _ => ⟨rfl, rfl⟩) (fun h => absurd h (by omega))
        (by simp) (by intro mc h; simp at h)
    · exact Bal.mk _ _ _ _ _ _ _ _ rfl (fun h => absurd h (by simp))
        (fun q hq => absurd hq (by simp)) (fun mc h => absurd h (by simp))
  | rollout sel g t P h ih =>
    have hp := rollout_preserve sel t g P ih.1 ih.2
    by_cases hres : (virtual_rollout sel t g).res = .Ongoing
    · rw [if_pos hres]
      exact ⟨hp.1, (hp.2.1 hres).2⟩
    · rw [if_neg hres]
      exact ⟨hp.1, hp.2.2 hres⟩
  | devirt g t p P h ih =>
    exact ⟨(devirt_preserve E hE p g t P ih.1 ih.2).1,
           (devirt_preserve E hE p g t P ih.1 ih.2).2⟩
  | commit g t m c h hm ih =>
    exact commit_preserve ih.1 ih.2 hm

/-! C2 -/

/-- In every reachable drained search-tree state (no rollout in flight) every
node of the tree passes verify_invariants, under the evaluator call contract
alone. -/
theorem drained_tree_satisfies_invariants (E : StateEval) (g : GameState)
    (t : Node) (hE : EvalOk E) (h : SReach E g t []) :
    verify_invariants t = true := by
  have hinv := sreach_inv E hE g t [] h
  exact verify_of_inv g t [] hinv.2 hinv.1 rfl

theorem evalOk_constSE : EvalOk constSE :=
  fun _ _ => ⟨by simp [constSE], by simp [constSE]⟩

theorem sreach_oneKidTree : SReach constSE constGame oneKidTree [] := by
  have h1 : SReach constSE constGame Node.new [] := .init _
  have hroll : virtual_rollout (fun _ => 0) Node.new constGame
      = ⟨.mk 0 1 0 0 .Ongoing [], [], .Ongoing, constGame, 0⟩ := by
    rw [Node.new, virtual_rollout]
    simp [constGame, GameState.winner]
  have h2 := SReach.rollout (fun _ => 0) constGame Node.new [] h1
  rw [hroll] at h2
  simp only [List.nil_append] at h2
  have h3 := SReach.devirt constGame (Node.mk 0 1 0 0 .Ongoing []) [] [] h2
  have hdv : devirtualize_path (Node.mk 0 1 0 0 .Ongoing [])
      [] (constSE (playPath constGame [])) = oneKidTree := by
    rw [playPath_nil]
    simp [devirtualize_path, constSE, oneKidTree]
  rw [hdv] at h3
  exact h3

theorem verify_mk_pos_ongoing_nil (k vv : Nat) (x p : Int) :
    verify_invariants (.mk (k + 1) vv x p .Ongoing []) = false := by
  rw [verify_invariants.eq_def]
  simp

theorem verify_mk_pos_ongoing (k vv : Nat) (x p : Int) (cs : List (Move × Node))
    (hvv : vv = 0) (hcs : cs ≠ [])
    (hall : ∀ mc ∈ cs, verify_invariants mc.2 = true) :
    verify_invariants (.mk (k + 1) vv x p .Ongoing cs) = true := by
  rw [verify_invariants.eq_def]
  simp only [Bool.and_eq_true, beq_iff_eq, List.all_eq_true]
  refine ⟨⟨hvv, ?_⟩, ?_⟩
  · have hln : cs.length ≠ 0 := fun h => hcs (List.length_eq_zero.mp h)
    simp [hln]
  · intro mc _
    exact hall mc.1 mc.2

/-- C2 counterexample: a reachable, fully drained tree whose root holds
exactly one child (the expansion of a position with a single legal move, legal
under the evaluator contract).  Committing that move succeeds, yet the
discarded tree that Node::play verifies -- the root with the played child
removed -- has positive visits, result Ongoing and no children left, so
invariant (b) fails and verify_invariants returns false on it. -/
theorem discarded_root_invariant_counterexample :
    EvalOk constSE ∧
    SReach constSE constGame oneKidTree [] ∧
    oneKidTree.play 0 = .ok (.mk 0 0 0 1 .Ongoing []) ∧
    oneKidTree.discard 0 = .mk 1 0 0 0 .Ongoing [] ∧
    0 < (oneKidTree.discard 0).visits ∧
    (oneKidTree.discard 0).result = .Ongoing ∧
    (oneKidTree.discard 0).children = [] ∧
    verify_invariants (oneKidTree.discard 0) = false := by
  refine ⟨evalOk_constSE, sreach_oneKidTree, rfl, rfl, by decide, rfl, rfl, ?_⟩
  show verify_invariants (Node.mk 1 0 0 0 .Ongoing []) = false
  exact verify_mk_pos_ongoing_nil 0 0 0 0

/-- C2 (amended): in every reachable drained search-tree state the whole tree
passes verify_invariants (virtual_visits zero everywhere, zero visits implies
Ongoing with no children, positive visits implies exactly one of a decided
result and a non-empty child set); at a move commit every node of the
discarded tree strictly below its root also passes, and the discarded root
itself passes exactly when the played move was not the root's only child --
when it was, the discarded root keeps its positive visits and Ongoing result
with no children left, and verify_invariants fails on the discarded tree. -/
theorem drained_and_discarded_tree_invariants (E : StateEval) (g : GameState)
    (t : Node) (m : Move) (c : Node) (hE : EvalOk E) (h : SReach E g t [])
    (hm : (m, c) ∈ t.children) :
    verify_invariants t = true ∧
    (∀ mc ∈ (t.discard m).children, verify_invariants mc.2 = true) ∧
    ((∃ mc ∈ t.children, mc.1 ≠ m) → verify_invariants (t.discard m) = true) ∧
    ((∀ mc ∈ t.children, mc.1 = m) → verify_invariants (t.discard m) = false) := by
  obtain ⟨hR, hB⟩ := sreach_inv E hE g t [] h
  have hv1 := verify_of_inv g t [] hB hR rfl
  cases t with
  | mk v vv x p r cs =>
  cases hR with
  | mk _ _ _ _ _ _ h0 h1 hk hc =>
  cases hB with
  | mk _ _ _ _ _ _ _ _ hlen hleaf hhead hcB =>
  have hm2 : (m, c) ∈ cs := hm
  have hcs_ne : cs ≠ [] := List.ne_nil_of_mem hm2
  have hvpos : 0 < v := by
    rcases Nat.eq_zero_or_pos v with hv | hv
    · exact absurd (h0 hv).2 hcs_ne
    · exact hv
  have hrOng : r = .Ongoing := (h1 hvpos).mpr hcs_ne
  subst hrOng
  have hvv0 : vv = 0 := by simpa using hlen
  obtain ⟨k, hkv⟩ : ∃ k, v = k + 1 := ⟨v - 1, by omega⟩
  subst hkv
  have hchild : ∀ mc ∈ cs, verify_invariants mc.2 = true := by
    intro mc hmc
    exact verify_of_inv (g.play mc.1) mc.2 (sub [] mc.1) (hcB mc hmc) (hc mc hmc) rfl
  refine ⟨hv1, ?_, ?_, ?_⟩
  · intro mc hmc
    have hmc2 : mc ∈ cs.filter (fun mc => !(mc.1 == m)) := hmc
    exact hchild mc (List.mem_filter.mp hmc2).1
  · rintro ⟨mc', hmc', hne⟩
    show verify_invariants
      (Node.mk (k + 1) vv x p .Ongoing (cs.filter (fun mc => !(mc.1 == m)))) = true
    have hkeep : mc' ∈ cs.filter (fun mc => !(mc.1 == m)) :=
      List.mem_filter.mpr ⟨hmc', by simp [hne]⟩
    refine verify_mk_pos_ongoing k vv x p _ hvv0 (List.ne_nil_of_mem hkeep) ?_
    intro mc hmc
    exact hchild mc (List.mem_filter.mp hmc).1
  · intro hall
    have hfe : cs.filter (fun mc => !(mc.1 == m)) = [] := by
      rw [List.filter_eq_nil_iff]
      intro a ha
      simp [hall a ha]
    show verify_invariants
      (Node.mk (k + 1) vv x p .Ongoing (cs.filter (fun mc => !(mc.1 == m)))) = false
    rw [hfe]
    exact verify_mk_pos_ongoing_nil k vv x p

/-- C2 witness: the amended theorem applied at the concrete reachable
one-child tree, whose played move is the root's only child. -/
theorem drained_and_discarded_tree_invariants_witness :
    (EvalOk constSE ∧ SReach constSE constGame oneKidTree [] ∧
      (0, Node.mk 0 0 0 1 .Ongoing []) ∈ oneKidTree.children) ∧
    (verify_invariants oneKidTree = true ∧
     (∀ mc ∈ (oneKidTree.discard 0).children, verify_invariants mc.2 = true) ∧
     ((∃ mc ∈ oneKidTree.children, mc.1 ≠ 0) →
       verify_invariants (oneKidTree.discard 0) = true) ∧
     ((∀ mc ∈ oneKidTree.children, mc.1 = 0) →
       verify_invariants (oneKidTree.discard 0) = false)) :=
  ⟨⟨evalOk_constSE, sreach_oneKidTree, List.mem_cons_self _ _⟩,
   drained_and_discarded_tree_invariants constSE constGame oneKidTree 0
     (.mk 0 0 0 1 .Ongoing []) evalOk_constSE sreach_oneKidTree
     (List.mem_cons_self _ _)⟩

end AlphaTak
